import Mathlib

/-!
Shallow embedding of the concurrent-hashmap benchmark harness
(`src/hashmap.rs` of tower-sesh-benches).

The harness benchmarks three interchangeable concurrent map backends
(`Mutex<std::collections::HashMap>`, `dashmap::DashMap`, `scc::HashMap`)
through one trait, `ConcurrentHashMap`, with two operations `insert` and
`get`.  The embedding is sequential: each backend's observable behaviour
through the trait is that of a finite partial map from keys to values
(the backends' internal concurrency machinery is an external collaborator;
all three satisfy the same insert/get contract, which is what the harness
relies on).  Keys and values are `String`s.  Stateful code is embedded by
explicit state passing; the `Option::expect` panic on pool exhaustion is
embedded as `Except String`.
-/

/-- Keys of the benchmarked maps (`String` in the source). -/
abbrev Key := String

/-- Values of the benchmarked maps (`String` in the source). -/
abbrev Value := String

/-! ### Decimal string conversion

`populate_map` builds its keys with Rust's `u64::to_string`, i.e. the
decimal text form of the integer.  We embed it by a fuel-based digit
extraction (fuel `n` suffices for the number `n`), which the kernel can
evaluate, and prove it injective via an explicit decoding left inverse. -/

/-- Little-endian decimal digits of `n`, with explicit fuel (first argument).
When `n ≤ fuel` this computes exactly the decimal digits of `n` (empty for 0). -/
def digitsAux : Nat → Nat → List Nat
  | _, 0 => []
  | 0, _ + 1 => []
  | fuel + 1, n + 1 => (n + 1) % 10 :: digitsAux fuel ((n + 1) / 10)

/-- Little-endian decimal digits of `n` (empty for 0). -/
def decDigits (n : Nat) : List Nat := digitsAux n n

/-- Embedding of Rust's `u64::to_string`: the decimal text form of `n`,
most significant digit first. -/
def to_string (n : Nat) : String :=
  if n = 0 then "0" else String.mk (((decDigits n).map Nat.digitChar).reverse)

/-- Inverse of `Nat.digitChar` on digits: `'0'..'9'` back to `0..9`. -/
def charToDigit (c : Char) : Nat := c.toNat - 48

/-- Evaluate a little-endian digit list back to a number. -/
def decodeDigits (l : List Nat) : Nat := l.foldr (fun d acc => d + 10 * acc) 0

/-- Decode a decimal string back to the number it denotes. -/
def decodeString (s : String) : Nat := decodeDigits ((s.data.reverse).map charToDigit)

/-! ### The map model and the three backend adapters

The trait `ConcurrentHashMap<K, V>` exposes
`insert(&self, key, val) -> Option<V>` (store, returning the previous
value if the key was present) and `get(&self, key) -> Option<V>`
(a copy of the stored value, absent keys give `None`).  A map state is a
partial function from keys to values; `insert` is state passing. -/

/-- Observable state of one backend instance: the stored key-value pairs. -/
def MapState := Key → Option Value

/-- The empty map: what `H::default()` constructs for every backend. -/
def emptyMap : MapState := fun _ => none

/-- `HashMap::insert` / `DashMap::insert` / `scc::HashMap::upsert` semantics:
store `v` under `k`, return the new state together with the previous value. -/
def stdInsert (m : MapState) (k : Key) (v : Value) : MapState × Option Value :=
  (fun k' => if k' = k then some v else m k', m k)

/-- `get` semantics shared by all three adapters: a copy of the stored value,
`none` for an absent key (never an error). -/
def stdGet (m : MapState) (k : Key) : Option Value := m k

/-- One backend adapter: the `ConcurrentHashMap` trait's operations. -/
structure Backend where
  insert : MapState → Key → Value → MapState × Option Value
  get : MapState → Key → Option Value

/-- Adapter for `Mutex<std::collections::HashMap>`: lock, then delegate to
`HashMap::insert` / `HashMap::get(..).cloned()` (sequentially, the lock is
transparent). -/
def MutexHashMap : Backend := ⟨stdInsert, stdGet⟩

/-- Adapter for `dashmap::DashMap`: delegates to `DashMap::insert` /
`DashMap::get(..).as_deref().cloned()`. -/
def DashMap : Backend := ⟨stdInsert, stdGet⟩

/-- Adapter for `scc::HashMap`: delegates to `scc::HashMap::upsert` /
`scc::HashMap::get(..).as_deref().cloned()`. -/
def sccHashMap : Backend := ⟨stdInsert, stdGet⟩

/-- The three backend variants enumerated by the benches' `types = [...]`. -/
def backends : List Backend := [MutexHashMap, DashMap, sccHashMap]

/-! ### Constants of the harness -/

/-- `const THREADS: &[usize] = &[0, 1, 2, 4, 8, 16]`. -/
def THREADS : List Nat := [0, 1, 2, 4, 8, 16]

/-- `const LENS: &[usize] = &[1, 2, 4, 8]`. -/
def LENS : List Nat := [1, 2, 4, 8]

/-- `const NUM_KEYS: u64 = 5000`. -/
def NUM_KEYS : Nat := 5000

/-- The diagnostic printed when the key pool is exhausted. -/
def NUM_KEYS_ERROR_MESSAGE : String :=
  "`NUM_KEYS` is not large enough to cover all iterations\nlower the iteration count with `sample_count` or `sample_size`, or increase `NUM_KEYS`"

/-! ### Population and the key distributor -/

/-- `populate_map`: build the keys `(1..=NUM_KEYS).map(|n| n.to_string())`,
insert each with a fresh value `f()` into the map, and return the keys.
State passing replaces the `&impl ConcurrentHashMap` mutation. -/
def populate_map (B : Backend) (m : MapState) (f : Unit → Value) : MapState × List Key :=
  let keys := (List.range' 1 NUM_KEYS).map to_string
  (keys.foldl (fun m' key => (B.insert m' key (f ())).1) m, keys)

/-- The key pool a read-benchmark cell is populated with:
decimal strings of `1..=NUM_KEYS`, in that order. -/
def poolKeys : List Key := (List.range' 1 NUM_KEYS).map to_string

/-- `MutexIter::next`: the distributor's draw.  Its state is the remaining
suffix of the pool (a `vec::IntoIter` guarded by a `Mutex`; sequentially the
lock is transparent).  Returns the next key and the advanced state, or `none`
when the pool is exhausted. -/
def MutexIter.next : List Key → Option (Key × List Key)
  | [] => none
  | k :: rest => some (k, rest)

/-- `Option::expect(msg)`: the value, or a fatal abort carrying `msg`. -/
def expect (o : Option α) (msg : String) : Except String α :=
  match o with
  | some a => Except.ok a
  | none => Except.error msg

/-- The untimed input-setup step of the `get` bench:
`keys_iter.next().expect(NUM_KEYS_ERROR_MESSAGE)`. -/
def getIterationInput (st : List Key) : Except String (Key × List Key) :=
  expect (MutexIter.next st) NUM_KEYS_ERROR_MESSAGE

/-- Draw `n` keys in sequence from the distributor: the keys drawn and the
remaining state, or `none` if the pool runs out before all `n` draws. -/
def drawKeys : Nat → List Key → Option (List Key × List Key)
  | 0, st => some ([], st)
  | n + 1, st =>
    match MutexIter.next st with
    | none => none
    | some (k, st') =>
      match drawKeys n st' with
      | none => none
      | some (ks, st'') => some (k :: ks, st'')

/-! ### The two benchmark bodies -/

/-- The timed body of one `get`-bench iteration: `for _ in 0..len { let val =
map.get(&key); black_box(val); }` — `len` lookups of the one drawn key
(`black_box` is the identity); the list collects the looked-up values. -/
def benchGetBody (B : Backend) (len : Nat) (m : MapState) (key : Key) : List (Option Value) :=
  (List.range len).map (fun _ => B.get m key)

/-- One full measured iteration of the `get` bench for one thread:
draw one key in the input-setup step, then run the timed body. -/
def getIteration (B : Backend) (len : Nat) (m : MapState) (st : List Key) :
    Except String (List (Option Value) × List Key) :=
  match getIterationInput st with
  | Except.error e => Except.error e
  | Except.ok (key, st') => Except.ok (benchGetBody B len m key, st')

/-- `n` consecutive measured iterations of the `get` bench for one thread,
threading the distributor state; aborts on pool exhaustion. -/
def runGetIterations (B : Backend) (len : Nat) (m : MapState) : Nat → List Key → Except String (List Key)
  | 0, st => Except.ok st
  | n + 1, st =>
    match getIteration B len m st with
    | Except.error e => Except.error e
    | Except.ok (_, st') => runGetIterations B len m n st'

/-- One measured iteration round of a `get`-bench cell with `threads` worker
threads: every thread's input-setup step draws one key from the shared
distributor (so the round consumes `threads` draws), or fails if the pool
runs out.  Returns the remaining pool. -/
def measuredIteration (threads : Nat) (st : List Key) : Option (List Key) :=
  match drawKeys threads st with
  | none => none
  | some (_, st') => some st'

/-- `n` measured iteration rounds of a `get`-bench cell with `threads`
worker threads. -/
def runMeasuredIterations (threads : Nat) : Nat → List Key → Option (List Key)
  | 0, st => some st
  | n + 1, st =>
    match measuredIteration threads st with
    | none => none
    | some st' => runMeasuredIterations threads n st'

/-- The setup of one `get`-bench cell (lines 124-127): a fresh default map,
populated via `populate_map` with constant value `"world"`; the returned keys
become the `MutexIter` distributor's initial state. -/
def getBenchSetup (B : Backend) : MapState × List Key :=
  populate_map B emptyMap (fun _ => "world")

/-- Insert each key of `ks` with value `f k` into the map, left to right
(the generic shape of a population / round-trip insertion phase). -/
def insertEach (B : Backend) (m : MapState) (ks : List Key) (f : Key → Value) : MapState :=
  ks.foldl (fun m' k => (B.insert m' k (f k)).1) m

/-- Apply a list of `insert` operations (key-value pairs) in order. -/
def applyInserts (B : Backend) (m : MapState) (ops : List (Key × Value)) : MapState :=
  ops.foldl (fun m' p => (B.insert m' p.1 p.2).1) m

/-- The state of the insert bench's cell map after `i` inserts of the
constant pair `("hello", "world")` (the bench repeatedly inserts that pair). -/
def mapAfter (B : Backend) : Nat → MapState
  | 0 => emptyMap
  | i + 1 => (B.insert (mapAfter B i) "hello" "world").1

/-- The value returned by the `i`-th (0-indexed) insert call of the insert
bench: inserting `("hello", "world")` into the cell map after `i` inserts. -/
def nthInsertResult (B : Backend) (i : Nat) : Option Value :=
  (B.insert (mapAfter B i) "hello" "world").2

/-- The state-level view of one `get` call: `get` takes `&self`, so the map
is returned unchanged alongside the looked-up value. -/
def getEffect (B : Backend) (m : MapState) (k : Key) : MapState × Option Value :=
  (m, B.get m k)

/-- A read-only sweep: a sequence of `get` calls threaded through the state. -/
def readSweep (B : Backend) (m : MapState) (ks : List Key) : MapState :=
  ks.foldl (fun m' k => (getEffect B m' k).1) m

/-! ### Helper lemmas: the decimal conversion is injective -/

theorem decodeDigits_cons (d : Nat) (l : List Nat) :
    decodeDigits (d :: l) = d + 10 * decodeDigits l := rfl

theorem decodeDigits_digitsAux (fuel : Nat) :
    ∀ n : Nat, n ≤ fuel → decodeDigits (digitsAux fuel n) = n := by
  induction fuel with
  | zero =>
    intro n h
    have h0 : n = 0 := Nat.le_zero.mp h
    subst h0
    rfl
  | succ fuel ih =>
    intro n h
    cases n with
    | zero => rfl
    | succ m =>
      have hdiv : (m + 1) / 10 ≤ fuel := by
        have hlt : (m + 1) / 10 < m + 1 := Nat.div_lt_self (Nat.succ_pos m) (by omega)
        omega
      have hrec := ih ((m + 1) / 10) hdiv
      show decodeDigits ((m + 1) % 10 :: digitsAux fuel ((m + 1) / 10)) = m + 1
      rw [decodeDigits_cons, hrec]
      exact Nat.mod_add_div (m + 1) 10

theorem digitsAux_lt (fuel : Nat) :
    ∀ n : Nat, ∀ d ∈ digitsAux fuel n, d < 10 := by
  induction fuel with
  | zero =>
    intro n d hd
    cases n <;> simp [digitsAux] at hd
  | succ fuel ih =>
    intro n d hd
    cases n with
    | zero => simp [digitsAux] at hd
    | succ m =>
      rw [show digitsAux (fuel + 1) (m + 1)
            = (m + 1) % 10 :: digitsAux fuel ((m + 1) / 10) from rfl] at hd
      rcases List.mem_cons.mp hd with h | h
      · subst h; exact Nat.mod_lt _ (by omega)
      · exact ih _ d h

theorem charToDigit_digitChar : ∀ d : Nat, d < 10 → charToDigit (Nat.digitChar d) = d := by
  decide

theorem map_charToDigit_digitChar (l : List Nat) (h : ∀ d ∈ l, d < 10) :
    (l.map Nat.digitChar).map charToDigit = l := by
  induction l with
  | nil => rfl
  | cons d l ih =>
    simp only [List.map_cons, List.cons.injEq]
    constructor
    · exact charToDigit_digitChar d (h d (List.mem_cons_self d l))
    · exact ih (fun d' hd' => h d' (List.mem_cons_of_mem d hd'))

theorem decodeString_to_string (n : Nat) : decodeString (to_string n) = n := by
  by_cases h0 : n = 0
  · subst h0; rfl
  · show decodeString (to_string n) = n
    rw [show to_string n = String.mk (((decDigits n).map Nat.digitChar).reverse) by
          simp [to_string, h0]]
    show decodeDigits (((((decDigits n).map Nat.digitChar).reverse).reverse).map charToDigit) = n
    rw [List.reverse_reverse]
    rw [map_charToDigit_digitChar (decDigits n) (digitsAux_lt n n)]
    exact decodeDigits_digitsAux n n (Nat.le_refl n)

theorem to_string_injective : Function.Injective to_string :=
  Function.LeftInverse.injective decodeString_to_string

theorem poolKeys_nodup : poolKeys.Nodup :=
  List.Nodup.map to_string_injective (List.nodup_range' 1 NUM_KEYS)

theorem poolKeys_length : poolKeys.length = NUM_KEYS := by
  simp [poolKeys]

/-! ### Helper lemmas: map semantics -/

theorem stdGet_foldl_insert (ks : List Key) (f : Key → Value) :
    ∀ (m : MapState) (k : Key),
      (ks.foldl (fun m' k' => (stdInsert m' k' (f k')).1) m) k
        = if k ∈ ks then some (f k) else m k := by
  induction ks with
  | nil => intro m k; simp
  | cons a as ih =>
    intro m k
    rw [List.foldl_cons, ih]
    by_cases hk : k ∈ as
    · simp [hk]
    · by_cases hka : k = a
      · subst hka; simp [hk, stdInsert]
      · simp [hk, hka, stdInsert]

theorem backend_eq_std : ∀ B ∈ backends, B = ⟨stdInsert, stdGet⟩ := by
  intro B hB
  rcases List.mem_cons.mp hB with h | hB
  · exact h
  rcases List.mem_cons.mp hB with h | hB
  · exact h
  rcases List.mem_cons.mp hB with h | hB
  · exact h
  · simp at hB

/-! ### Helper lemmas: the distributor -/

theorem drawKeys_take : ∀ (n : Nat) (st : List Key), n ≤ st.length →
    drawKeys n st = some (st.take n, st.drop n) := by
  intro n
  induction n with
  | zero => intro st h; simp [drawKeys]
  | succ n ih =>
    intro st h
    cases st with
    | nil => simp at h
    | cons a as =>
      have hn : n ≤ as.length := by
        simp only [List.length_cons] at h
        omega
      simp [drawKeys, MutexIter.next, ih as hn]

theorem drawKeys_overflow : ∀ (n : Nat) (st : List Key), st.length < n →
    drawKeys n st = none := by
  intro n
  induction n with
  | zero => intro st h; omega
  | succ n ih =>
    intro st h
    cases st with
    | nil => rfl
    | cons a as =>
      have hn : as.length < n := by
        simp only [List.length_cons] at h
        omega
      simp [drawKeys, MutexIter.next, ih as hn]

theorem runMeasured_ok : ∀ (t n : Nat) (st : List Key), t * n ≤ st.length →
    runMeasuredIterations t n st = some (st.drop (t * n)) := by
  intro t n
  induction n with
  | zero => intro st h; simp [runMeasuredIterations]
  | succ n ih =>
    intro st h
    rw [Nat.mul_succ] at h
    have ht : t ≤ st.length := le_trans (Nat.le_add_left t (t * n)) h
    have hrest : t * n ≤ (st.drop t).length := by
      rw [List.length_drop]
      exact Nat.le_sub_of_add_le h
    show (match measuredIteration t st with
          | none => none
          | some st' => runMeasuredIterations t n st') = _
    rw [show measuredIteration t st = some (st.drop t) by
          simp [measuredIteration, drawKeys_take t st ht]]
    show runMeasuredIterations t n (st.drop t) = some (st.drop (t * (n + 1)))
    rw [ih _ hrest, List.drop_drop]
    have harith : t + t * n = t * (n + 1) := by ring
    rw [harith]

theorem runMeasured_add (t m n : Nat) : ∀ st : List Key,
    runMeasuredIterations t (m + n) st =
      (match runMeasuredIterations t m st with
       | none => none
       | some st' => runMeasuredIterations t n st') := by
  induction m with
  | zero =>
    intro st
    simp [runMeasuredIterations, Nat.zero_add]
  | succ m ih =>
    intro st
    have hL : runMeasuredIterations t (m + 1 + n) st =
        (match measuredIteration t st with
         | none => none
         | some st' => runMeasuredIterations t (m + n) st') := by
      rw [show m + 1 + n = (m + n) + 1 by omega]
      rfl
    have hR : runMeasuredIterations t (m + 1) st =
        (match measuredIteration t st with
         | none => none
         | some st' => runMeasuredIterations t m st') := rfl
    rw [hL, hR]
    cases measuredIteration t st with
    | none => rfl
    | some st' => exact ih st'

theorem drawKeys_eq_take (N : Nat) (st ks st' : List Key)
    (h : drawKeys N st = some (ks, st')) :
    ks = st.take N ∧ st' = st.drop N ∧ N ≤ st.length := by
  by_cases hN : N ≤ st.length
  · have ht := drawKeys_take N st hN
    rw [h] at ht
    have hp := Option.some.inj ht
    exact ⟨congrArg Prod.fst hp, congrArg Prod.snd hp, hN⟩
  · exfalso
    rw [drawKeys_overflow N st (by omega)] at h
    exact Option.noConfusion h

theorem runGet_ok (B : Backend) (len : Nat) (m : MapState) :
    ∀ (n : Nat) (st : List Key), n ≤ st.length →
      runGetIterations B len m n st = Except.ok (st.drop n) := by
  intro n
  induction n with
  | zero => intro st _; rfl
  | succ n ih =>
    intro st h
    cases st with
    | nil => simp at h
    | cons a as =>
      have hn : n ≤ as.length := by
        simp only [List.length_cons] at h
        omega
      show runGetIterations B len m n as = Except.ok ((a :: as).drop (n + 1))
      rw [ih as hn]
      rfl

theorem readSweep_id (B : Backend) (ks : List Key) :
    ∀ m : MapState, readSweep B m ks = m := by
  induction ks with
  | nil => intro m; rfl
  | cons a as ih => intro m; exact ih m

theorem populatedMap_get : ∀ B ∈ backends, ∀ k ∈ poolKeys,
    B.get ((populate_map B emptyMap (fun _ => "world")).1) k = some "world" := by
  intro B hB k hk
  rw [backend_eq_std B hB]
  have hfold := stdGet_foldl_insert poolKeys (fun _ => "world") emptyMap k
  rw [if_pos hk] at hfold
  simp only [poolKeys] at hfold
  simp only [populate_map, stdGet, Backend.get, Backend.insert]
  exact hfold

theorem stdGet_applyInserts_not_mem (ops : List (Key × Value)) :
    ∀ (m : MapState) (k : Key), (∀ p ∈ ops, p.1 ≠ k) →
      applyInserts ⟨stdInsert, stdGet⟩ m ops k = m k := by
  induction ops with
  | nil => intro m k _; rfl
  | cons p ps ih =>
    intro m k h
    show applyInserts ⟨stdInsert, stdGet⟩ ((stdInsert m p.1 p.2).1) ps k = m k
    rw [ih _ k (fun q hq => h q (List.mem_cons_of_mem p hq))]
    show (if k = p.1 then some p.2 else m k) = m k
    rw [if_neg (Ne.symm (h p (List.mem_cons_self p ps)))]

/-! ### The claims -/

/-- C1: For every backend adapter (MutexHashMap, DashMap, scc::HashMap) and
every finite set of distinct keys `K`, inserting a value for every key in `K`
and then calling `get` on each key in `K` returns the value last inserted for
that key. -/
theorem insert_get_roundtrip :
    ∀ B ∈ backends, ∀ (ks : List Key) (f : Key → Value), ks.Nodup →
      ∀ k ∈ ks, B.get (insertEach B emptyMap ks f) k = some (f k) := by
  intro B hB ks f _ k hk
  rw [backend_eq_std B hB]
  have hfold := stdGet_foldl_insert ks f emptyMap k
  rw [if_pos hk] at hfold
  simp only [insertEach, stdGet, Backend.get, Backend.insert]
  exact hfold

/-- Witness for `insert_get_roundtrip`, at the MutexHashMap backend with the
distinct key set `["a", "b"]`. -/
theorem insert_get_roundtrip_witness :
    (["a", "b"] : List Key).Nodup ∧
    MutexHashMap.get (insertEach MutexHashMap emptyMap ["a", "b"] (fun _ => "v")) "a"
      = some "v" :=
  ⟨by decide,
   insert_get_roundtrip MutexHashMap (by simp [backends]) ["a", "b"] (fun _ => "v")
     (by decide) "a" (by decide)⟩

/-- C2: For every backend adapter, `insert` returns the value previously
stored under the key if one was present and `none` otherwise; in the write
benchmark, which repeatedly inserts the constant pair `("hello", "world")`,
the first insert returns `none` and every subsequent insert returns the
previous value `"world"`. -/
theorem insert_returns_previous :
    ∀ B ∈ backends,
      (∀ (m : MapState) (k : Key) (v : Value), (B.insert m k v).2 = B.get m k) ∧
      nthInsertResult B 0 = none ∧
      (∀ i : Nat, 1 ≤ i → nthInsertResult B i = some "world") := by
  intro B hB
  rw [backend_eq_std B hB]
  refine ⟨fun m k v => rfl, rfl, ?_⟩
  intro i hi
  cases i with
  | zero => omega
  | succ j => simp [nthInsertResult, mapAfter, stdInsert]

/-- Witness for `insert_returns_previous`: MutexHashMap, first and second
insert of the write benchmark. -/
theorem insert_returns_previous_witness :
    nthInsertResult MutexHashMap 0 = none ∧ nthInsertResult MutexHashMap 1 = some "world" :=
  ⟨(insert_returns_previous MutexHashMap (by simp [backends])).2.1,
   (insert_returns_previous MutexHashMap (by simp [backends])).2.2 1 (by decide)⟩

/-- C3: Calling the distributor's `next()` `N` times, `N` at most the pool
size, returns `N` pairwise-distinct keys (the first `N` pool keys), each a
member of the original key pool, with no duplicate ever returned. -/
theorem distributor_draws_distinct (N : Nat) (h : N ≤ NUM_KEYS) :
    drawKeys N poolKeys = some (poolKeys.take N, poolKeys.drop N) ∧
    (poolKeys.take N).Nodup ∧
    ∀ k ∈ poolKeys.take N, k ∈ poolKeys := by
  have hN : N ≤ poolKeys.length := by rw [poolKeys_length]; exact h
  exact ⟨drawKeys_take N poolKeys hN,
    poolKeys_nodup.sublist (List.take_sublist N poolKeys),
    fun k hk => List.mem_of_mem_take hk⟩

/-- Witness for `distributor_draws_distinct` at `N = 3`. -/
theorem distributor_draws_distinct_witness :
    (3 : Nat) ≤ NUM_KEYS ∧ (poolKeys.take 3).Nodup :=
  ⟨by decide, (distributor_draws_distinct 3 (by decide)).2.1⟩

/-- C4: Calling the distributor's `next()` more times than the pool size
fails exactly on the (pool size + 1)-th call, deterministically: the first
`size` calls return the whole pool, the next one signals exhaustion, and the
benchmark's input step turns that into the configuration-exhaustion
diagnostic (`expect` aborts) rather than silently reusing keys. -/
theorem distributor_exhaustion (st : List Key) :
    drawKeys st.length st = some (st, []) ∧
    drawKeys (st.length + 1) st = none ∧
    getIterationInput [] = Except.error NUM_KEYS_ERROR_MESSAGE ∧
    drawKeys (NUM_KEYS + 1) poolKeys = none := by
  refine ⟨?_, drawKeys_overflow (st.length + 1) st (by omega), rfl,
    drawKeys_overflow (NUM_KEYS + 1) poolKeys (by rw [poolKeys_length]; omega)⟩
  have ht := drawKeys_take st.length st (Nat.le_refl _)
  rw [List.take_length, List.drop_length] at ht
  exact ht

/-- C5 counterexample: with pool size 5000 and 4 worker threads, the 157th
measured iteration round does NOT trigger the exhaustion error — all 157
rounds' draws succeed (each round consumes one draw per thread, i.e. 4 keys,
not 4 × 8; 157 rounds consume only 628 of the 5000 keys). -/
theorem get_bench_no_error_at_157 :
    runMeasuredIterations 4 157 poolKeys = some (poolKeys.drop 628) := by
  have h : 4 * 157 ≤ poolKeys.length := by rw [poolKeys_length]; decide
  have hr := runMeasured_ok 4 157 poolKeys h
  rw [show 4 * 157 = 628 by norm_num] at hr
  exact hr

/-- C5 amended: with pool size 5000, thread count 4, and any batch length,
each measured iteration round draws one key per thread (4 in total,
independent of the batch length), so every round up to the 1250th succeeds —
in particular at least 156 full rounds — and the 1251st round's draw
triggers the exhaustion error. -/
theorem get_bench_exhaustion_rounds (n : Nat) (h : n ≤ 1250) :
    runMeasuredIterations 4 n poolKeys = some (poolKeys.drop (4 * n)) ∧
    runMeasuredIterations 4 1251 poolKeys = none := by
  constructor
  · refine runMeasured_ok 4 n poolKeys ?_
    rw [poolKeys_length]
    show 4 * n ≤ 5000
    omega
  · rw [show (1251 : Nat) = 1250 + 1 by norm_num]
    rw [runMeasured_add 4 1250 1 poolKeys]
    rw [runMeasured_ok 4 1250 poolKeys (by rw [poolKeys_length]; decide)]
    rw [show 4 * 1250 = poolKeys.length by rw [poolKeys_length]; decide]
    rw [List.drop_length]
    rfl

/-- Witness for `get_bench_exhaustion_rounds` at `n = 156`. -/
theorem get_bench_exhaustion_rounds_witness :
    (156 : Nat) ≤ 1250 ∧ runMeasuredIterations 4 1251 poolKeys = none :=
  ⟨by decide, (get_bench_exhaustion_rounds 156 (by decide)).2⟩

/-- C6: The key pool of a read-benchmark cell consists of exactly
`NUM_KEYS = 5000` keys — the decimal string forms of the integers `1` through
`NUM_KEYS`, in that order; they are pairwise distinct, and every one of them
is inserted into the backend (paired with the constant value) before
measurement starts. -/
theorem populate_pool_spec :
    NUM_KEYS = 5000 ∧
    poolKeys.length = NUM_KEYS ∧
    (∀ i : Nat, i < NUM_KEYS → poolKeys[i]? = some (to_string (i + 1))) ∧
    poolKeys.Nodup ∧
    (∀ B : Backend, (populate_map B emptyMap (fun _ => "world")).2 = poolKeys) ∧
    (∀ B ∈ backends, ∀ k ∈ poolKeys,
      B.get ((populate_map B emptyMap (fun _ => "world")).1) k = some "world") := by
  refine ⟨rfl, poolKeys_length, ?_, poolKeys_nodup, fun B => rfl, populatedMap_get⟩
  intro i hi
  simp only [poolKeys, List.getElem?_map]
  rw [List.getElem?_range' 1 1 hi]
  rw [show 1 + 1 * i = i + 1 from by omega]
  rfl

/-- Witness for `populate_pool_spec`: the third pool key is `to_string 3`, and
after population `get "3"` on the MutexHashMap backend yields `"world"`. -/
theorem populate_pool_spec_witness :
    (2 : Nat) < NUM_KEYS ∧ poolKeys[2]? = some (to_string 3) ∧
    MutexHashMap.get ((populate_map MutexHashMap emptyMap (fun _ => "world")).1) "3"
      = some "world" :=
  ⟨by decide,
   by
     have h := populate_pool_spec.2.2.1 2 (by decide)
     norm_num at h
     exact h,
   populate_pool_spec.2.2.2.2.2 MutexHashMap (by simp [backends]) "3" (by decide)⟩

/-- C7: For every backend adapter, `get` on a key that was never inserted
returns `none` — no value and, by the shape of the contract, never an error. -/
theorem get_absent_key :
    ∀ B ∈ backends, ∀ (ops : List (Key × Value)) (k : Key),
      (∀ p ∈ ops, p.1 ≠ k) → B.get (applyInserts B emptyMap ops) k = none := by
  intro B hB ops k h
  rw [backend_eq_std B hB]
  have happ := stdGet_applyInserts_not_mem ops emptyMap k h
  show applyInserts ⟨stdInsert, stdGet⟩ emptyMap ops k = none
  rw [happ]
  rfl

/-- Witness for `get_absent_key`: after inserting only `("a", "1")`,
`get "b"` on the MutexHashMap backend yields `none`. -/
theorem get_absent_key_witness :
    (∀ p ∈ ([("a", "1")] : List (Key × Value)), p.1 ≠ "b") ∧
    MutexHashMap.get (applyInserts MutexHashMap emptyMap [("a", "1")]) "b" = none :=
  ⟨by decide, get_absent_key MutexHashMap (by simp [backends]) [("a", "1")] "b" (by decide)⟩

/-- C8: After the population phase, running any sequence of `get` calls
(a read-only sweep) leaves the backend's observable state unchanged — the
stored keys and their values after the sweep equal those immediately after
population. -/
theorem read_sweep_frame :
    ∀ B ∈ backends, ∀ ks : List Key,
      readSweep B (getBenchSetup B).1 ks = (getBenchSetup B).1 := by
  intro B _ ks
  exact readSweep_id B ks (getBenchSetup B).1

/-- Witness for `read_sweep_frame`: MutexHashMap, a two-key sweep. -/
theorem read_sweep_frame_witness :
    readSweep MutexHashMap (getBenchSetup MutexHashMap).1 ["1", "2"]
      = (getBenchSetup MutexHashMap).1 :=
  read_sweep_frame MutexHashMap (by simp [backends]) ["1", "2"]

/-- C9: In the get benchmark, each measured iteration draws exactly one key
from the distributor in the untimed input-setup step and performs
batch-length lookups of that same key; the distributor state after `n`
iterations is the pool minus `n` keys, independent of the batch length — so
the total number of pool draws equals the number of measured iterations. -/
theorem get_iteration_draws_one (B : Backend) (len n : Nat) (m : MapState)
    (key : Key) (rest st : List Key) (h : n ≤ st.length) :
    getIteration B len m (key :: rest) = Except.ok (benchGetBody B len m key, rest) ∧
    benchGetBody B len m key = List.replicate len (B.get m key) ∧
    runGetIterations B len m n st = Except.ok (st.drop n) := by
  refine ⟨rfl, ?_, runGet_ok B len m n st h⟩
  simp [benchGetBody, List.map_const', List.length_range]

/-- Witness for `get_iteration_draws_one`: 2 iterations of batch length 8
consume exactly 2 keys of a 2-key pool. -/
theorem get_iteration_draws_one_witness :
    (2 : Nat) ≤ (["a", "b"] : List Key).length ∧
    runGetIterations MutexHashMap 8 emptyMap 2 ["a", "b"]
      = Except.ok ((["a", "b"] : List Key).drop 2) :=
  ⟨by decide,
   (get_iteration_draws_one MutexHashMap 8 2 emptyMap "k" [] ["a", "b"] (by decide)).2.2⟩

/-- C10: At the start of a read-benchmark cell's timed region the
distributor holds exactly the key sequence inserted during population, so
every key the distributor hands out is present in the map: `get` on any
distributor-drawn key returns the constant population value, never `none`. -/
theorem distributor_keys_present :
    ∀ B ∈ backends,
      (getBenchSetup B).2 = poolKeys ∧
      (∀ (N : Nat) (ks st' : List Key),
        drawKeys N (getBenchSetup B).2 = some (ks, st') →
        ∀ k ∈ ks, B.get (getBenchSetup B).1 k = some "world") := by
  intro B hB
  refine ⟨rfl, ?_⟩
  intro N ks st' h k hk
  have hds : drawKeys N poolKeys = some (ks, st') := h
  obtain ⟨hks, -, -⟩ := drawKeys_eq_take N poolKeys ks st' hds
  subst hks
  exact populatedMap_get B hB k (List.mem_of_mem_take hk)

/-- Witness for `distributor_keys_present`: the first drawn key `"1"` is
present in the populated MutexHashMap backend. -/
theorem distributor_keys_present_witness :
    MutexHashMap.get (getBenchSetup MutexHashMap).1 "1" = some "world" :=
  (distributor_keys_present MutexHashMap (by simp [backends])).2 1
    (poolKeys.take 1) (poolKeys.drop 1)
    (drawKeys_take 1 poolKeys (by rw [poolKeys_length]; decide)) "1" (by decide)
